import Mathlib

/-!
Shallow embedding of the lifilter job-digest pipeline (service.py) and
verification of its specification claims.

The embedding models:
- Python str.split semantics (leftmost, non-overlapping occurrences of a
  non-empty separator) over lists of characters;
- the DescriptionParser HTML scanner as a step function over a token stream;
- decode_email over a rose tree of MIME parts with preorder traversal;
- extract_jobs with a model of re.findall over the literal-with-dot-wildcard
  pattern LI_BASE_URL plus a maximal digit run;
- filter_jobs parameterised by the outcome of requests.get per reference
  (a raised transport error, which the code does not catch, or a response
  carrying r.ok and the body) and a language-detection oracle (None models
  a LangDetectException, which the code catches and maps to "unknown").
-/

/-! ## Python str.split model -/

/-- Strips the exact character sequence p from the front of s; some r when
s = p ++ r, none otherwise. -/
def stripPre : List Char → List Char → Option (List Char)
  | [], s => some s
  | _ :: _, [] => none
  | p :: ps, c :: cs => if p = c then stripPre ps cs else none

/-- Splits s at the leftmost occurrence of sep: some (a, b) with
s = a ++ sep ++ b and a shortest, none when sep does not occur in s. -/
def splitAtFirst (sep : List Char) : List Char → Option (List Char × List Char)
  | [] => (stripPre sep []).map (fun r => ([], r))
  | c :: cs =>
    match stripPre sep (c :: cs) with
    | some r => some ([], r)
    | none => (splitAtFirst sep cs).map (fun p => (c :: p.1, p.2))

/-- Fueled model of Python str.split with a non-empty separator: pieces
between successive leftmost non-overlapping occurrences of sep. -/
def pySplitF (sep : List Char) : Nat → List Char → List (List Char)
  | 0, s => [s]
  | fuel + 1, s =>
    match splitAtFirst sep s with
    | none => [s]
    | some (a, b) => a :: pySplitF sep fuel b

/-- Python s.split(sep) over character lists (sep non-empty in every use). -/
def pysplit (sep s : List Char) : List (List Char) := pySplitF sep (s.length + 1) s

/-- Python s.split(sep) over strings. -/
def pysplitS (sep s : String) : List String := (pysplit sep.data s.data).map String.mk

/-! ## DescriptionParser (the HTML markup scanner of service.py) -/

/-- One event of the streaming HTML tokenizer, as delivered to the
DescriptionParser handler methods. -/
inductive HtmlToken where
  | startTag : String → List (String × String) → HtmlToken
  | endTag : String → HtmlToken
  | text : String → HtmlToken
deriving DecidableEq

/-- The class attribute value that marks the description div. -/
def descClass : String := "description__text description__text--rich"

/-- The mutable state of DescriptionParser: the two recording flags and the
data dict, whose keys title and description are both set by init. -/
structure DescriptionParser where
  recording_title : Bool
  recording_desc : Bool
  title : String
  description : List String
deriving DecidableEq

/-- DescriptionParser.init: flags false, data = (title: "", description: []). -/
def DescriptionParser.init : DescriptionParser :=
  { recording_title := false, recording_desc := false, title := "", description := [] }

/-- handle_starttag: a title tag sets the title flag; a div tag sets the
description flag when some attribute is class = descClass; other tags return. -/
def handle_starttag (st : DescriptionParser) (tag : String)
    (attributes : List (String × String)) : DescriptionParser :=
  if tag = "title" then { st with recording_title := true }
  else if tag = "div" then
    if attributes.any (fun nv => nv.1 == "class" && nv.2 == descClass) then
      { st with recording_desc := true }
    else st
  else st

/-- handle_endtag: a div end tag clears the description flag, a title end
tag clears the title flag, both unconditionally (no nesting depth). -/
def handle_endtag (st : DescriptionParser) (tag : String) : DescriptionParser :=
  let st1 := if tag = "div" then { st with recording_desc := false } else st
  if tag = "title" then { st1 with recording_title := false } else st1

/-- handle_data: while the title flag is set the data overwrites the stored
title; while the description flag is set the data is appended. -/
def handle_data (st : DescriptionParser) (d : String) : DescriptionParser :=
  let st1 := if st.recording_title then { st with title := d } else st
  if st.recording_desc then { st1 with description := st1.description ++ [d] } else st1

/-- Dispatch of one token to the corresponding handler method. -/
def step (st : DescriptionParser) : HtmlToken → DescriptionParser
  | .startTag tag attrs => handle_starttag st tag attrs
  | .endTag tag => handle_endtag st tag
  | .text d => handle_data st d

/-- dp = DescriptionParser(); dp.feed(page): run the scanner over a stream. -/
def feed (toks : List HtmlToken) : DescriptionParser :=
  toks.foldl step DescriptionParser.init

/-! ## decode_email -/

/-- One MIME part: declared content type, payload, sub-parts. -/
inductive EmailPart where
  | mk : String → String → List EmailPart → EmailPart

/-- The declared content type of a part. -/
def EmailPart.contentType : EmailPart → String
  | .mk ct _ _ => ct

/-- The payload of a part. -/
def EmailPart.payload : EmailPart → String
  | .mk _ pl _ => pl

mutual

/-- message.walk(): the part itself, then every sub-part, depth first. -/
def walk : EmailPart → List EmailPart
  | .mk ct pl subs => .mk ct pl subs :: walkList subs

/-- walk over a list of sibling parts. -/
def walkList : List EmailPart → List EmailPart
  | [] => []
  | p :: ps => walk p ++ walkList ps

end

/-- The loop body of decode_email: a plain-text part overwrites the
accumulator, any other part leaves it unchanged. -/
def decodeStep (acc : String) (part : EmailPart) : String :=
  if part.contentType = "text/plain" then part.payload else acc

/-- decode_email: walk every part; the last text/plain payload wins,
starting from the empty string. -/
def decode_email (msg : EmailPart) : String :=
  (walk msg).foldl decodeStep ""

/-! ## extract_jobs -/

/-- The fixed base URL of a job listing page. -/
def LI_BASE_URL : String := "https://www.linkedin.com/comm/jobs/view/"

/-- Matches the regex pattern LI_BASE_URL character by character against the
front of s; a pattern dot is the regex wildcard (the code does not escape
the dots of the base URL), every other character is literal. Returns the
consumed characters and the rest. -/
def scanPat : List Char → List Char → Option (List Char × List Char)
  | [], s => some ([], s)
  | _ :: _, [] => none
  | p :: ps, c :: cs =>
    if p = '.' ∨ p = c then (scanPat ps cs).map (fun q => (c :: q.1, q.2)) else none

/-- The maximal leading digit run of s and the rest. -/
def takeDigits : List Char → List Char × List Char
  | [] => ([], [])
  | c :: cs =>
    if c.isDigit then
      let q := takeDigits cs
      (c :: q.1, q.2)
    else ([], c :: cs)

/-- Fueled model of re.findall(pat + r"\d+", s): successive leftmost
non-overlapping matches, each returned as (consumed pattern text, digit run);
the full matched substring is the concatenation of the two. -/
def findAllF (pat : List Char) : Nat → List Char → List (List Char × List Char)
  | 0, _ => []
  | fuel + 1, s =>
    match s with
    | [] => []
    | c :: cs =>
      match scanPat pat (c :: cs) with
      | some (con, rest) =>
        match takeDigits rest with
        | (d :: ds, rest2) => (con, d :: ds) :: findAllF pat fuel rest2
        | ([], _) => findAllF pat fuel cs
      | none => findAllF pat fuel cs

/-- re.findall(LI_BASE_URL + r"\d+", body) over character lists. -/
def findAllChars (pat s : List Char) : List (List Char × List Char) :=
  findAllF pat s.length s

/-- x.split('/')[-1]: the final slash-separated segment of a match. -/
def lastSegS (x : String) : String := String.mk ((pysplit ['/'] x.data).getLastD [])

/-- extract_jobs: the matches of the job URL pattern, reduced to their final
path segment, deduplicated (the set(...) of the code), and filtered to
length exactly 10. -/
def extract_jobs (plain_text_body : String) : List String :=
  (((findAllChars LI_BASE_URL.data plain_text_body.data).map
      (fun m => lastSegS (String.mk (m.1 ++ m.2)))).dedup).filter
    (fun x => x.length == 10)

/-! ## filter_jobs -/

/-- The three field extractions of filter_jobs lines 110 to 112, in source
order: place from the second " in " piece of the title cut at " | ",
job title from the second " hiring " piece cut at " in ", company from the
first " hiring" piece (note: no trailing space in that separator). A missing
piece index 1 is a Python IndexError, modelled as an error value. -/
def parseFields (title : String) : Except String (String × String × String) :=
  match (pysplitS " in " title)[1]? with
  | none => .error "IndexError: list index out of range"
  | some s1 =>
    let place := (pysplitS " | " s1).headD ""
    match (pysplitS " hiring " title)[1]? with
    | none => .error "IndexError: list index out of range"
    | some s2 =>
      let job_title := (pysplitS " in " s2).headD ""
      let company := (pysplitS " hiring" title).headD ""
      .ok (job_title, company, place)

/-- The outcome of r = requests.get(job_url) for one reference: raised
models a transport failure (connection error, timeout), which the call site
does not catch, so it propagates out of filter_jobs; response carries r.ok
(True exactly when the status code is below 400) and the tokenized markup
of r.text. -/
inductive FetchResult where
  | raised : String → FetchResult
  | response : Bool → List HtmlToken → FetchResult
deriving DecidableEq

/-- filter_jobs, parameterised by the per-reference outcome of requests.get
(see FetchResult: a raised transport error is uncaught and aborts the call,
a response with r.ok false hits the silent continue, a response with r.ok
true is parsed) and the langdetect oracle (none models a raised
LangDetectException, caught by the code and mapped to "unknown"). The title
read models dp.data.get('title','No Title Found'); the key title is always
present (set by init), so the read returns the stored value and the default
'No Title Found' of the source is unreachable. An IndexError of the field
splitting propagates as an error aborting the whole call. -/
def filter_jobs (fetch : String → FetchResult) (det : String → Option String)
    (job_ids : List String) (required_languages : List String := ["en"]) :
    Except String (List (String × String × String × String)) :=
  match job_ids with
  | [] => .ok []
  | job_id :: rest =>
    match fetch job_id with
    | .raised e => .error e
    | .response ok toks =>
      if ok then
        let dp := feed toks
        match parseFields dp.title with
        | .error e => .error e
        | .ok (job_title, company, place) =>
          let language := (det (String.intercalate "\n" dp.description)).getD "unknown"
          if language ∈ required_languages then
            (filter_jobs fetch det rest required_languages).map
              (fun l => (job_title, company, place, LI_BASE_URL ++ job_id) :: l)
          else filter_jobs fetch det rest required_languages
      else
        filter_jobs fetch det rest required_languages

/-! ## handler: reply subject and plaintext report -/

/-- The reply subject of handler line 195: the count of surviving listings,
then the trailing piece of the original subject after the last occurrence of
"new jobs" (the whole subject when the marker is absent). -/
def resp_subject (n : Nat) (subject : String) : String :=
  "Hey: " ++ toString n ++ " new jobs " ++ (pysplitS "new jobs" subject).getLastD ""

/-- One numbered line of the plaintext report body. -/
def jobLine (i : Nat) (j : String × String × String × String) : String :=
  toString (i + 1) ++ ". " ++ String.intercalate ", " [j.1, j.2.1, j.2.2.1, j.2.2.2]

/-- The plaintext report of build_reply, with the formatted date a parameter. -/
def build_plaintext (filtered_jobs : List (String × String × String × String))
    (datefmt : String) : String :=
  "Job Alerts\n-------------\nThese are your filtered job alerts for " ++ datefmt ++
    "\n\n" ++
    String.intercalate "\r\n" (filtered_jobs.enum.map (fun p => jobLine p.1 p.2)) ++
    "\nThanks for using li-filter"

/-- The handler from the job-id list onward: filter with the default language
set, then build the reply subject and plaintext body. An error of filter_jobs
propagates, so no reply value is produced. -/
def handler_reply (fetch : String → FetchResult) (det : String → Option String)
    (job_ids : List String) (subject datefmt : String) : Except String (String × String) :=
  (filter_jobs fetch det job_ids).map
    (fun fj => (resp_subject fj.length subject, build_plaintext fj datefmt))

/-! ## Spec-side definitions, written from the words of the claims -/

/-- Splitting a string at the first occurrence of a separator, string level. -/
def splitAtFirstS (sep s : String) : Option (String × String) :=
  (splitAtFirst sep.data s.data).map (fun p => (String.mk p.1, String.mk p.2))

/-- The splitting rule exactly as claim C1 words it: company is the substring
before the first occurrence of " hiring ", job title is the substring of the
remainder (the text after that first " hiring ") before the remainder's first
" in ", place is the substring after that " in " up to the first " | ". -/
def claimFields (title : String) : Option (String × String × String) :=
  match splitAtFirstS " hiring " title with
  | none => none
  | some (company, rest) =>
    match splitAtFirstS " in " rest with
    | none => none
    | some (job_title, rest2) =>
      match splitAtFirstS " | " rest2 with
      | none => none
      | some (place, _) => some (job_title, company, place)

/-- The amended splitting rule: company is the text before the first
occurrence of " hiring" (no trailing space); job title is the segment between
the first and second non-overlapping occurrences of " hiring " (the whole
remainder when there is no second), cut before its first " in "; place is the
segment between the first and second non-overlapping occurrences of " in " of
the whole title (the whole remainder when there is no second), cut before its
first " | ". -/
def amendedFields (title : String) : Option (String × String × String) :=
  match splitAtFirstS " hiring " title, splitAtFirstS " in " title,
      splitAtFirstS " hiring" title with
  | some (_, restH), some (_, restI), some (company, _) =>
    let seg2 := ((splitAtFirstS " hiring " restH).map Prod.fst).getD restH
    let job_title := ((splitAtFirstS " in " seg2).map Prod.fst).getD seg2
    let placeSeg := ((splitAtFirstS " in " restI).map Prod.fst).getD restI
    let place := ((splitAtFirstS " | " placeSeg).map Prod.fst).getD placeSeg
    some (job_title, company, place)
  | _, _, _ => none

/-- Claim C4 reading of the decoder: the payload of the last part in
traversal order whose declared content type is text/plain, or the empty
string when there is none. -/
def lastPlainText (msg : EmailPart) : String :=
  ((((walk msg).filter (fun p => p.contentType == "text/plain")).getLast?).map
      EmailPart.payload).getD ""

/-- Claim C8 reading of the scanner, instrumented over the same flag
automaton: the text fragments delivered while the title flag is set and
those delivered while the description flag is set, in order. -/
def fragsFrom (st : DescriptionParser) : List HtmlToken → List String × List String
  | [] => ([], [])
  | tok :: rest =>
    let cur : List String × List String :=
      match tok with
      | .text d =>
        (if st.recording_title then [d] else [], if st.recording_desc then [d] else [])
      | _ => ([], [])
    let next := fragsFrom (step st tok) rest
    (cur.1 ++ next.1, cur.2 ++ next.2)

/-! ## Properties of the split model -/

theorem stripPre_eq_some : ∀ {p s r : List Char}, stripPre p s = some r ↔ s = p ++ r := by
  intro p
  induction p with
  | nil => intro s r; simp [stripPre]
  | cons a as ih =>
    intro s r
    cases s with
    | nil => simp [stripPre]
    | cons c cs =>
      by_cases hac : a = c
      · subst hac
        simp [stripPre, ih]
      · simp [stripPre, hac]
        intro h
        exact fun _ => hac h.symm

theorem splitAtFirst_decomp : ∀ {sep s a b : List Char},
    splitAtFirst sep s = some (a, b) → s = a ++ sep ++ b := by
  intro sep s
  induction s with
  | nil =>
    intro a b h
    simp only [splitAtFirst, Option.map_eq_some'] at h
    obtain ⟨r, hr, heq⟩ := h
    obtain ⟨rfl, rfl⟩ := Prod.mk.injEq .. ▸ heq
    simpa using (stripPre_eq_some.mp hr)
  | cons c cs ih =>
    intro a b h
    cases hsp : stripPre sep (c :: cs) with
    | some r =>
      rw [splitAtFirst, hsp] at h
      cases h
      simpa using stripPre_eq_some.mp hsp
    | none =>
      rw [splitAtFirst, hsp] at h
      simp only [Option.map_eq_some'] at h
      obtain ⟨⟨a', b'⟩, hr, heq⟩ := h
      cases heq
      have := ih hr
      simp [this]

theorem splitAtFirst_isSome : ∀ {sep s : List Char},
    (∃ a b, s = a ++ sep ++ b) → (splitAtFirst sep s).isSome := by
  intro sep s h
  obtain ⟨a, b, rfl⟩ := h
  induction a with
  | nil =>
    simp only [List.nil_append]
    have hsp : stripPre sep (sep ++ b) = some b := stripPre_eq_some.mpr rfl
    cases hs : sep ++ b with
    | nil => rw [hs] at hsp; simp [splitAtFirst, hsp]
    | cons c cs => rw [hs] at hsp; simp [splitAtFirst, hsp]
  | cons x xs ih =>
    have hassoc : (x :: xs) ++ sep ++ b = x :: (xs ++ sep ++ b) := by simp
    rw [hassoc]
    cases hsp : stripPre sep (x :: (xs ++ sep ++ b)) with
    | some r => rw [splitAtFirst, hsp]; rfl
    | none => rw [splitAtFirst, hsp]; simpa using ih

theorem splitAtFirst_none {sep s : List Char} (h : splitAtFirst sep s = none) :
    ¬∃ a b, s = a ++ sep ++ b := by
  intro hex
  have := splitAtFirst_isSome hex
  rw [h] at this
  simp at this

theorem splitAtFirst_snd_length {sep s a b : List Char} (hsep : sep ≠ [])
    (h : splitAtFirst sep s = some (a, b)) : b.length < s.length := by
  have hd := splitAtFirst_decomp h
  subst hd
  have : 0 < sep.length := List.length_pos.mpr hsep
  simp [List.length_append]
  omega

theorem splitAtFirst_min : ∀ {sep s a b : List Char},
    splitAtFirst sep s = some (a, b) → ∀ a' b', s = a' ++ sep ++ b' → a.length ≤ a'.length := by
  intro sep s
  induction s with
  | nil =>
    intro a b h a' b' hs
    simp only [splitAtFirst, Option.map_eq_some'] at h
    obtain ⟨r, hr, heq⟩ := h
    cases heq
    simp
  | cons c cs ih =>
    intro a b h a' b' hs
    cases hsp : stripPre sep (c :: cs) with
    | some r =>
      rw [splitAtFirst, hsp] at h
      cases h
      simp
    | none =>
      rw [splitAtFirst, hsp] at h
      simp only [Option.map_eq_some'] at h
      obtain ⟨⟨a0, b0⟩, hr, heq⟩ := h
      cases heq
      cases a' with
      | nil =>
        exfalso
        simp only [List.nil_append] at hs
        have : stripPre sep (c :: cs) = some b' := stripPre_eq_some.mpr hs
        rw [hsp] at this
        exact Option.noConfusion this
      | cons x a'' =>
        simp only [List.cons_append, List.cons.injEq] at hs
        obtain ⟨rfl, hcs⟩ := hs
        have := ih hr a'' b' hcs
        simpa using this

theorem pySplitF_fuel {sep : List Char} (hsep : sep ≠ []) :
    ∀ f f' s, s.length < f → s.length < f' → pySplitF sep f s = pySplitF sep f' s := by
  intro f
  induction f with
  | zero => intro f' s h; exact absurd h (Nat.not_lt_zero _)
  | succ f ih =>
    intro f' s h h'
    cases f' with
    | zero => exact absurd h' (Nat.not_lt_zero _)
    | succ f'' =>
      simp only [pySplitF]
      cases hsp : splitAtFirst sep s with
      | none => rfl
      | some p =>
        obtain ⟨a, b⟩ := p
        have hb := splitAtFirst_snd_length hsep hsp
        show a :: pySplitF sep f b = a :: pySplitF sep f'' b
        rw [ih f'' b (by omega) (by omega)]

theorem pysplit_eq {sep : List Char} (hsep : sep ≠ []) (s : List Char) :
    pysplit sep s = match splitAtFirst sep s with
      | none => [s]
      | some (a, b) => a :: pysplit sep b := by
  cases hsp : splitAtFirst sep s with
  | none =>
    show pySplitF sep (s.length + 1) s = _
    rw [pySplitF, hsp]
  | some p =>
    obtain ⟨a, b⟩ := p
    have hb := splitAtFirst_snd_length hsep hsp
    show pySplitF sep (s.length + 1) s = a :: pySplitF sep (b.length + 1) b
    rw [pySplitF, hsp]
    show a :: pySplitF sep s.length b = _
    rw [pySplitF_fuel hsep s.length (b.length + 1) b (by omega) (by omega)]

theorem pySplitF_ne_nil (sep : List Char) : ∀ f s, pySplitF sep f s ≠ [] := by
  intro f s
  cases f with
  | zero => simp [pySplitF]
  | succ f =>
    simp only [pySplitF]
    cases splitAtFirst sep s with
    | none => simp
    | some p => obtain ⟨a, b⟩ := p; simp

theorem pysplit_ne_nil (sep s : List Char) : pysplit sep s ≠ [] :=
  pySplitF_ne_nil sep (s.length + 1) s

theorem getLastD_cons_ne_nil {α : Type} {l : List α} (h : l ≠ []) (a d : α) :
    (a :: l).getLastD d = l.getLastD d := by
  cases l with
  | nil => exact absurd rfl h
  | cons x xs => simp [List.getLastD_cons]

theorem pysplit_no_occur {sep s : List Char} (h : ¬∃ a b, s = a ++ sep ++ b) :
    pysplit sep s = [s] := by
  have hsep : sep ≠ [] := by
    rintro rfl
    exact h ⟨[], s, by simp⟩
  rw [pysplit_eq hsep]
  cases hsp : splitAtFirst sep s with
  | none => rfl
  | some p =>
    obtain ⟨a, b⟩ := p
    exact absurd ⟨a, b, splitAtFirst_decomp hsp⟩ h

theorem pySplitF_getLast {sep : List Char} (hsep : sep ≠ []) :
    ∀ fuel s, s.length < fuel →
      (¬∃ a b, (pySplitF sep fuel s).getLastD [] = a ++ sep ++ b) ∧
      ((∃ a b, s = a ++ sep ++ b) →
        ∃ pre, s = pre ++ sep ++ (pySplitF sep fuel s).getLastD []) ∧
      ((¬∃ a b, s = a ++ sep ++ b) → (pySplitF sep fuel s).getLastD [] = s) := by
  intro fuel
  induction fuel with
  | zero => intro s h; exact absurd h (Nat.not_lt_zero _)
  | succ f ih =>
    intro s h
    cases hsp : splitAtFirst sep s with
    | none =>
      have hno := splitAtFirst_none hsp
      have hval : (pySplitF sep (f + 1) s).getLastD [] = s := by
        rw [pySplitF, hsp]
        simp
      refine ⟨by rw [hval]; exact hno, fun hex => absurd hex hno, fun _ => hval⟩
    | some p =>
      obtain ⟨a, b⟩ := p
      have hdec := splitAtFirst_decomp hsp
      have hb : b.length < s.length := splitAtFirst_snd_length hsep hsp
      have ihb := ih b (by omega)
      have hval : (pySplitF sep (f + 1) s).getLastD [] = (pySplitF sep f b).getLastD [] := by
        rw [pySplitF, hsp]
        show (a :: pySplitF sep f b).getLastD [] = _
        exact getLastD_cons_ne_nil (pySplitF_ne_nil sep f b) a []
      refine ⟨by rw [hval]; exact ihb.1, fun _ => ?_, fun hno => ?_⟩
      · rw [hval]
        by_cases hbx : ∃ a' b', b = a' ++ sep ++ b'
        · obtain ⟨pre', hpre'⟩ := ihb.2.1 hbx
          refine ⟨a ++ sep ++ pre', ?_⟩
          conv_lhs => rw [hdec, hpre']
          simp
        · rw [ihb.2.2 hbx]
          exact ⟨a, hdec⟩
      · exact absurd ⟨a, b, hdec⟩ hno

theorem pysplit_getLast_spec {sep : List Char} (hsep : sep ≠ []) (s : List Char) :
    (¬∃ a b, (pysplit sep s).getLastD [] = a ++ sep ++ b) ∧
    ((∃ a b, s = a ++ sep ++ b) →
      ∃ pre, s = pre ++ sep ++ (pysplit sep s).getLastD []) ∧
    ((¬∃ a b, s = a ++ sep ++ b) → (pysplit sep s).getLastD [] = s) :=
  pySplitF_getLast hsep (s.length + 1) s (Nat.lt_succ_self _)

/-! ## String-level bridges -/

theorem string_data_append (a b : String) : (a ++ b).data = a.data ++ b.data := rfl

theorem string_occurs_iff {sep s : String} :
    (∃ a b : String, s = a ++ sep ++ b) ↔ ∃ a b : List Char, s.data = a ++ sep.data ++ b := by
  constructor
  · rintro ⟨a, b, rfl⟩
    exact ⟨a.data, b.data, rfl⟩
  · rintro ⟨a, b, h⟩
    refine ⟨⟨a⟩, ⟨b⟩, ?_⟩
    apply String.ext
    exact h

theorem map_getLastD {α β : Type} (f : α → β) :
    ∀ (l : List α) (d : α), (l.map f).getLastD (f d) = f (l.getLastD d) := by
  intro l
  induction l with
  | nil => intro d; rfl
  | cons x xs ih =>
    intro d
    simp only [List.map_cons, List.getLastD_cons]
    exact ih x

theorem pysplitS_getLastD (sep s : String) :
    (pysplitS sep s).getLastD "" = String.mk ((pysplit sep.data s.data).getLastD []) := by
  unfold pysplitS
  have hmt : ("" : String) = String.mk [] := rfl
  rw [hmt]
  exact map_getLastD String.mk (pysplit sep.data s.data) []

theorem pysplitS_headD (sep s : String) :
    (pysplitS sep s).headD "" = String.mk ((pysplit sep.data s.data).headD []) := by
  unfold pysplitS
  cases hl : pysplit sep.data s.data with
  | nil => exact absurd hl (pysplit_ne_nil sep.data s.data)
  | cons x xs => simp

/-- Claim C9: for every original subject line and every surviving-listing
count n (including 0), the reply subject is the count prefix "Hey: n new
jobs " followed by the trailing portion of the original subject after the
marker "new jobs" (the trailing piece itself contains no further marker);
when the marker is absent the unmodified subject text is used as the
trailing part. -/
theorem C9_reply_subject (n : Nat) (subject : String) :
    ∃ t : String,
      resp_subject n subject = "Hey: " ++ toString n ++ " new jobs " ++ t ∧
      ((∃ a b : String, subject = a ++ "new jobs" ++ b) →
        (∃ pre : String, subject = pre ++ "new jobs" ++ t) ∧
          ¬∃ a b : String, t = a ++ "new jobs" ++ b) ∧
      ((¬∃ a b : String, subject = a ++ "new jobs" ++ b) → t = subject) := by
  have hsep : ("new jobs" : String).data ≠ [] := by decide
  have hkey := pysplit_getLast_spec hsep subject.data
  refine ⟨(pysplitS "new jobs" subject).getLastD "", rfl, ?_, ?_⟩
  · intro hocc
    have hocc' : ∃ a b : List Char, subject.data = a ++ ("new jobs" : String).data ++ b :=
      string_occurs_iff.mp hocc
    obtain ⟨pre, hpre⟩ := hkey.2.1 hocc'
    constructor
    · refine ⟨String.mk pre, ?_⟩
      rw [pysplitS_getLastD]
      apply String.ext
      exact hpre
    · rw [pysplitS_getLastD]
      intro hc
      apply hkey.1
      exact string_occurs_iff.mp hc
  · intro hno
    rw [pysplitS_getLastD]
    have hval := hkey.2.2 (fun hex => hno (string_occurs_iff.mpr hex))
    rw [hval]

/-! ## Step lemmas for filter_jobs -/

theorem filter_jobs_nil (fetch : String → FetchResult) (det : String → Option String)
    (langs : List String) : filter_jobs fetch det [] langs = .ok [] := rfl

theorem filter_jobs_cons_raised {fetch : String → FetchResult}
    {det : String → Option String} {job_id : String} {e : String}
    (h : fetch job_id = .raised e) (rest : List String) (langs : List String) :
    filter_jobs fetch det (job_id :: rest) langs = .error e := by
  rw [filter_jobs, h]

theorem filter_jobs_cons_notok {fetch : String → FetchResult}
    {det : String → Option String} {job_id : String} {toks : List HtmlToken}
    (h : fetch job_id = .response false toks) (rest : List String) (langs : List String) :
    filter_jobs fetch det (job_id :: rest) langs = filter_jobs fetch det rest langs := by
  rw [filter_jobs, h]
  rfl

theorem filter_jobs_cons_err {fetch : String → FetchResult}
    {det : String → Option String} {job_id : String} {toks : List HtmlToken} {e : String}
    (hf : fetch job_id = .response true toks) (hpf : parseFields (feed toks).title = .error e)
    (rest : List String) (langs : List String) :
    filter_jobs fetch det (job_id :: rest) langs = .error e := by
  rw [filter_jobs, hf]
  show (match parseFields (feed toks).title with
    | Except.error e => Except.error e
    | Except.ok (job_title, company, place) =>
      let language := (det (String.intercalate "\n" (feed toks).description)).getD "unknown"
      if language ∈ langs then
        (filter_jobs fetch det rest langs).map
          (fun l => (job_title, company, place, LI_BASE_URL ++ job_id) :: l)
      else filter_jobs fetch det rest langs) = _
  rw [hpf]

theorem filter_jobs_cons_ok {fetch : String → FetchResult}
    {det : String → Option String} {job_id : String} {toks : List HtmlToken}
    {jt c p : String} (hf : fetch job_id = .response true toks)
    (hpf : parseFields (feed toks).title = .ok (jt, c, p))
    (rest : List String) (langs : List String) :
    filter_jobs fetch det (job_id :: rest) langs =
      if ((det (String.intercalate "\n" (feed toks).description)).getD "unknown") ∈ langs then
        (filter_jobs fetch det rest langs).map
          (fun l => (jt, c, p, LI_BASE_URL ++ job_id) :: l)
      else filter_jobs fetch det rest langs := by
  rw [filter_jobs, hf]
  show (match parseFields (feed toks).title with
    | Except.error e => Except.error e
    | Except.ok (job_title, company, place) =>
      let language := (det (String.intercalate "\n" (feed toks).description)).getD "unknown"
      if language ∈ langs then
        (filter_jobs fetch det rest langs).map
          (fun l => (job_title, company, place, LI_BASE_URL ++ job_id) :: l)
      else filter_jobs fetch det rest langs) = _
  rw [hpf]

theorem filter_jobs_append {fetch : String → FetchResult}
    {det : String → Option String} {langs : List String} :
    ∀ l1 l2 : List String,
      filter_jobs fetch det (l1 ++ l2) langs =
        match filter_jobs fetch det l1 langs with
        | .error e => .error e
        | .ok res1 => (filter_jobs fetch det l2 langs).map (fun res2 => res1 ++ res2) := by
  intro l1
  induction l1 with
  | nil =>
    intro l2
    simp only [List.nil_append, filter_jobs_nil]
    cases filter_jobs fetch det l2 langs <;> simp [Except.map]
  | cons job_id rest ih =>
    intro l2
    rw [List.cons_append]
    cases hf : fetch job_id with
    | raised e => rw [filter_jobs_cons_raised hf, filter_jobs_cons_raised hf]
    | response ok toks =>
      cases ok with
      | false => rw [filter_jobs_cons_notok hf, filter_jobs_cons_notok hf, ih]
      | true =>
        cases hpf : parseFields (feed toks).title with
        | error e => rw [filter_jobs_cons_err hf hpf, filter_jobs_cons_err hf hpf]
        | ok trip =>
          obtain ⟨jt, c, p⟩ := trip
          rw [filter_jobs_cons_ok hf hpf, filter_jobs_cons_ok hf hpf, ih]
          by_cases hlang :
              ((det (String.intercalate "\n" (feed toks).description)).getD "unknown") ∈ langs
          · simp only [if_pos hlang]
            cases h1 : filter_jobs fetch det rest langs with
            | error e => simp [Except.map]
            | ok res1 =>
              cases h2 : filter_jobs fetch det l2 langs <;> simp [Except.map]
          · simp only [if_neg hlang]

theorem filter_jobs_skip_middle {fetch : String → FetchResult}
    {det : String → Option String} {langs : List String} {r : String}
    (hskip : ∀ post', filter_jobs fetch det (r :: post') langs = filter_jobs fetch det post' langs)
    (pre post : List String) :
    filter_jobs fetch det (pre ++ r :: post) langs = filter_jobs fetch det (pre ++ post) langs := by
  rw [filter_jobs_append, filter_jobs_append, hskip post]

/-! ## Claim theorems on filter_jobs -/

/-- Claim C3 counterexample: a transport failure is not silently dropped.
With the second of three references raising a connection error and the
other two fetching cleanly, filter_jobs aborts with that error instead of
returning the results of the remaining references, which the same run
without the failing reference shows would have been produced. -/
theorem C3_counterexample :
    filter_jobs
        (fun j => if j = "2222222222" then FetchResult.raised "ConnectionError"
          else FetchResult.response true [HtmlToken.startTag "title" [],
            HtmlToken.text "A hiring B in C | D", HtmlToken.endTag "title"])
        (fun _ => some "en") ["1111111111", "2222222222", "3333333333"] ["en"] =
      .error "ConnectionError" ∧
    filter_jobs
        (fun j => if j = "2222222222" then FetchResult.raised "ConnectionError"
          else FetchResult.response true [HtmlToken.startTag "title" [],
            HtmlToken.text "A hiring B in C | D", HtmlToken.endTag "title"])
        (fun _ => some "en") ["1111111111", "3333333333"] ["en"] =
      .ok [("B", "A", "C", LI_BASE_URL ++ "1111111111"),
        ("B", "A", "C", LI_BASE_URL ++ "3333333333")] :=
  ⟨rfl, rfl⟩

/-- Claim C3 as amended: a reference whose fetch returns an unsuccessful
HTTP response (r.ok false, status 400 or above) is silently dropped, with
no retry and no error surfaced, and the run continues over all remaining
references; a transport failure, by contrast, is uncaught: it aborts the
whole invocation with that error, independent of the references after the
failing one. -/
theorem C3_http_error_dropped_transport_aborts (fetch : String → FetchResult)
    (det : String → Option String) (pre post : List String) (r : String)
    (langs : List String) :
    (∀ toks, fetch r = .response false toks →
      filter_jobs fetch det (pre ++ r :: post) langs =
        filter_jobs fetch det (pre ++ post) langs) ∧
    ∀ e, fetch r = .raised e →
      filter_jobs fetch det (pre ++ r :: post) langs =
          filter_jobs fetch det (pre ++ [r]) langs ∧
        ∃ e', filter_jobs fetch det (pre ++ r :: post) langs = .error e' := by
  constructor
  · intro toks h
    exact filter_jobs_skip_middle (fun post' => filter_jobs_cons_notok h post' langs) pre post
  · intro e h
    have hstep : ∀ post' : List String, filter_jobs fetch det (r :: post') langs = .error e :=
      fun post' => filter_jobs_cons_raised h post' langs
    constructor
    · rw [filter_jobs_append, filter_jobs_append, hstep post, hstep []]
    · rw [filter_jobs_append, hstep post]
      cases filter_jobs fetch det pre langs with
      | error e1 => exact ⟨e1, rfl⟩
      | ok res1 => exact ⟨e, rfl⟩

/-- Claim C6: when a fetched listing's title lacks the expected separators,
the field-splitting IndexError propagates uncaught: the whole filter_jobs
invocation returns that error, the references after the failing one are
never consulted (the result equals the run truncated right after the failing
reference), and the handler builds no reply at all. -/
theorem C6_title_parse_failure_aborts (fetch : String → FetchResult)
    (det : String → Option String) (r : String) (toks : List HtmlToken) (err : String)
    (pre post : List String) (langs : List String) (subject datefmt : String)
    (hf : fetch r = .response true toks) (hpf : parseFields (feed toks).title = .error err) :
    filter_jobs fetch det (pre ++ r :: post) langs = filter_jobs fetch det (pre ++ [r]) langs ∧
      (∃ e, filter_jobs fetch det (pre ++ r :: post) langs = .error e) ∧
      ∃ e, handler_reply fetch det (pre ++ r :: post) subject datefmt = .error e := by
  have hstep : ∀ (post' : List String) (langs' : List String),
      filter_jobs fetch det (r :: post') langs' = .error err :=
    fun post' langs' => filter_jobs_cons_err hf hpf post' langs'
  refine ⟨?_, ?_, ?_⟩
  · rw [filter_jobs_append, filter_jobs_append, hstep post langs, hstep [] langs]
  · rw [filter_jobs_append, hstep post langs]
    cases filter_jobs fetch det pre langs with
    | error e => exact ⟨e, rfl⟩
    | ok res1 => exact ⟨err, rfl⟩
  · unfold handler_reply
    rw [filter_jobs_append, hstep post ["en"]]
    cases filter_jobs fetch det pre ["en"] with
    | error e => exact ⟨e, rfl⟩
    | ok res1 => exact ⟨err, rfl⟩

theorem C6_witness :
    (fun _ : String => FetchResult.response true []) "x" = FetchResult.response true [] ∧
      parseFields (feed []).title = .error "IndexError: list index out of range" ∧
      (filter_jobs (fun _ => .response true []) (fun _ => none)
            (["a"] ++ "x" :: ["b"]) ["en"] =
          filter_jobs (fun _ => .response true []) (fun _ => none) (["a"] ++ ["x"]) ["en"] ∧
        (∃ e, filter_jobs (fun _ => .response true []) (fun _ => none)
          (["a"] ++ "x" :: ["b"]) ["en"] = .error e) ∧
        ∃ e, handler_reply (fun _ => .response true []) (fun _ => none) (["a"] ++ "x" :: ["b"])
          "subj" "today" = .error e) :=
  ⟨rfl, rfl, C6_title_parse_failure_aborts (fun _ => .response true []) (fun _ => none) "x" [] _
    ["a"] ["b"] ["en"] "subj" "today" rfl rfl⟩

theorem filter_jobs_empty_langs {fetch : String → FetchResult}
    {det : String → Option String} :
    ∀ (job_ids : List String) (res : List (String × String × String × String)),
      filter_jobs fetch det job_ids [] = .ok res → res = [] := by
  intro job_ids
  induction job_ids with
  | nil =>
    intro res h
    rw [filter_jobs_nil] at h
    cases h
    rfl
  | cons job_id rest ih =>
    intro res h
    cases hf : fetch job_id with
    | raised e => rw [filter_jobs_cons_raised hf] at h; cases h
    | response ok toks =>
      cases ok with
      | false =>
        rw [filter_jobs_cons_notok hf] at h
        exact ih res h
      | true =>
        cases hpf : parseFields (feed toks).title with
        | error e => rw [filter_jobs_cons_err hf hpf] at h; cases h
        | ok trip =>
          obtain ⟨jt, c, p⟩ := trip
          rw [filter_jobs_cons_ok hf hpf] at h
          simp only [List.not_mem_nil, if_false] at h
          exact ih res h

/-- Claim C7: the language filter is a pure membership test. For a single
successfully fetched and parsed reference, the listing tuple is produced
exactly when the detected language is in the allowed set; the sentinel
"unknown" is rejected under the default set; and with the empty allowed set
no invocation ever retains a listing. -/
theorem C7_language_membership_filter (fetch : String → FetchResult)
    (det : String → Option String) (r : String) (toks : List HtmlToken)
    (jt c p lang : String) (hf : fetch r = .response true toks)
    (hpf : parseFields (feed toks).title = .ok (jt, c, p))
    (hlang : lang = (det (String.intercalate "\n" (feed toks).description)).getD "unknown") :
    (∀ langs, filter_jobs fetch det [r] langs =
        .ok (if lang ∈ langs then [(jt, c, p, LI_BASE_URL ++ r)] else [])) ∧
      (lang = "unknown" → filter_jobs fetch det [r] ["en"] = .ok []) ∧
      ∀ (job_ids : List String) (res : List (String × String × String × String)),
        filter_jobs fetch det job_ids [] = .ok res → res = [] := by
  have hone : ∀ langs, filter_jobs fetch det [r] langs =
      .ok (if lang ∈ langs then [(jt, c, p, LI_BASE_URL ++ r)] else []) := by
    intro langs
    rw [filter_jobs_cons_ok hf hpf, ← hlang, filter_jobs_nil]
    by_cases hmem : lang ∈ langs
    · simp [hmem, Except.map]
    · simp [hmem]
  refine ⟨hone, fun hunk => ?_, fun ids res h => filter_jobs_empty_langs ids res h⟩
  rw [hone ["en"]]
  have : lang ∉ (["en"] : List String) := by
    rw [hunk]
    decide
  simp only [this, if_false]

theorem C7_witness :
    (fun _ : String => FetchResult.response true [HtmlToken.startTag "title" [],
        HtmlToken.text "A hiring B in C | D", HtmlToken.endTag "title"]) "1234567890" =
      FetchResult.response true [HtmlToken.startTag "title" [],
        HtmlToken.text "A hiring B in C | D", HtmlToken.endTag "title"] ∧
    parseFields (feed [HtmlToken.startTag "title" [], HtmlToken.text "A hiring B in C | D",
        HtmlToken.endTag "title"]).title = .ok ("B", "A", "C") ∧
    ("en" : String) = ((fun _ : String => some "en") (String.intercalate "\n"
        (feed [HtmlToken.startTag "title" [], HtmlToken.text "A hiring B in C | D",
          HtmlToken.endTag "title"]).description)).getD "unknown" ∧
    ((∀ langs, filter_jobs (fun _ => .response true [HtmlToken.startTag "title" [],
          HtmlToken.text "A hiring B in C | D", HtmlToken.endTag "title"])
          (fun _ => some "en") ["1234567890"] langs =
        .ok (if "en" ∈ langs then
          [("B", "A", "C", LI_BASE_URL ++ "1234567890")] else [])) ∧
      (("en" : String) = "unknown" → filter_jobs
          (fun _ => .response true [HtmlToken.startTag "title" [],
            HtmlToken.text "A hiring B in C | D", HtmlToken.endTag "title"])
          (fun _ => some "en") ["1234567890"] ["en"] = .ok []) ∧
      ∀ (job_ids : List String) (res : List (String × String × String × String)),
        filter_jobs (fun _ => .response true [HtmlToken.startTag "title" [],
            HtmlToken.text "A hiring B in C | D", HtmlToken.endTag "title"])
          (fun _ => some "en") job_ids [] = .ok res → res = []) :=
  ⟨rfl, rfl, rfl, C7_language_membership_filter _ (fun _ => some "en") "1234567890" _
    "B" "A" "C" "en" rfl rfl rfl⟩

/-- Claim C10: a successfully fetched page with no captured description
fragments leads to language detection on the empty joined string; its
failure (det "" = none) is caught and mapped to "unknown", which the default
language set rejects, so the listing contributes nothing and no exception
escapes: the run equals the run without that reference. -/
theorem C10_empty_description_excluded (fetch : String → FetchResult)
    (det : String → Option String) (r : String) (toks : List HtmlToken)
    (jt c p : String) (pre post : List String) (hf : fetch r = .response true toks)
    (hdesc : (feed toks).description = []) (hdet : det "" = none)
    (hpf : parseFields (feed toks).title = .ok (jt, c, p)) :
    filter_jobs fetch det (pre ++ r :: post) ["en"] =
      filter_jobs fetch det (pre ++ post) ["en"] := by
  apply filter_jobs_skip_middle (fun post' => ?_) pre post
  rw [filter_jobs_cons_ok hf hpf]
  have hint : String.intercalate "\n" (feed toks).description = "" := by
    rw [hdesc]
    rfl
  rw [hint, hdet]
  have hmem : ("unknown" : String) ∉ (["en"] : List String) := by decide
  simp only [Option.getD_none, hmem, if_false]

theorem C10_witness :
    (fun _ : String => FetchResult.response true [HtmlToken.startTag "title" [],
        HtmlToken.text "A hiring B in C | D", HtmlToken.endTag "title"]) "x" =
      FetchResult.response true [HtmlToken.startTag "title" [],
        HtmlToken.text "A hiring B in C | D", HtmlToken.endTag "title"] ∧
    (feed [HtmlToken.startTag "title" [], HtmlToken.text "A hiring B in C | D",
        HtmlToken.endTag "title"]).description = [] ∧
    (fun _ : String => (none : Option String)) "" = none ∧
    parseFields (feed [HtmlToken.startTag "title" [], HtmlToken.text "A hiring B in C | D",
        HtmlToken.endTag "title"]).title = .ok ("B", "A", "C") ∧
    filter_jobs (fun _ => .response true [HtmlToken.startTag "title" [],
        HtmlToken.text "A hiring B in C | D", HtmlToken.endTag "title"]) (fun _ => none)
        (["a"] ++ "x" :: ["b"]) ["en"] =
      filter_jobs (fun _ => .response true [HtmlToken.startTag "title" [],
        HtmlToken.text "A hiring B in C | D", HtmlToken.endTag "title"]) (fun _ => none)
        (["a"] ++ ["b"]) ["en"] :=
  ⟨rfl, rfl, rfl, rfl, C10_empty_description_excluded _ (fun _ => none) "x" _
    "B" "A" "C" ["a"] ["b"] rfl rfl rfl rfl⟩

/-- Claim C2 (code bug in the source): for a successfully fetched page with
no captured title text the stored title is the empty string, not the
sentinel "No Title Found": init sets data title to "", so the lookup
data.get(title, No Title Found) always finds the key and the sentinel
default is unreachable; the subsequent field splitting on "" then raises an
IndexError instead of following the claimed degraded-data path. -/
theorem C2_sentinel_unreachable :
    (feed [HtmlToken.startTag "div" [("class", descClass)], HtmlToken.text "body text",
        HtmlToken.endTag "div"]).title = "" ∧
    ("" : String) ≠ "No Title Found" ∧
    filter_jobs (fun _ => .response true [HtmlToken.startTag "div" [("class", descClass)],
        HtmlToken.text "body text", HtmlToken.endTag "div"]) (fun _ => some "en")
      ["1234567890"] ["en"] = .error "IndexError: list index out of range" :=
  ⟨rfl, by decide, rfl⟩

/-! ## decode_email: last plain-text part wins -/

theorem foldl_decodeStep (l : List EmailPart) :
    ∀ acc : String,
      l.foldl decodeStep acc =
        (((l.filter (fun p => p.contentType == "text/plain")).getLast?).map
            EmailPart.payload).getD acc := by
  induction l with
  | nil => intro acc; rfl
  | cons x xs ih =>
    intro acc
    rw [List.foldl_cons, ih, List.filter_cons]
    by_cases hx : x.contentType = "text/plain"
    · have hfx : (x.contentType == "text/plain") = true := beq_iff_eq.mpr hx
      rw [if_pos hfx]
      cases hxs : xs.filter (fun p => p.contentType == "text/plain") with
      | nil => simp [decodeStep, hx]
      | cons y ys =>
        rw [List.getLast?_cons_cons]
        cases hz : (y :: ys).getLast? with
        | none => simp at hz
        | some z => simp
    · have hfx : ¬(x.contentType == "text/plain") = true := by
        simp only [beq_iff_eq]
        exact hx
      rw [if_neg hfx]
      have hstep : decodeStep acc x = acc := by simp [decodeStep, hx]
      rw [hstep]

/-- Claim C4: decode returns the payload of the last part in traversal
order whose declared content type is text/plain; with no plain-text part it
returns the empty string (the function is total, so no malformed input can
raise). -/
theorem C4_decode_email_last_plain_wins (msg : EmailPart) :
    decode_email msg = lastPlainText msg ∧
      ((walk msg).filter (fun p => p.contentType == "text/plain") = [] →
        decode_email msg = "") := by
  constructor
  · exact foldl_decodeStep (walk msg) ""
  · intro h
    unfold decode_email
    rw [foldl_decodeStep (walk msg) "", h]
    rfl

/-! ## DescriptionParser: flags and captured fragments -/

theorem handle_starttag_title (st : DescriptionParser) (tag : String)
    (attrs : List (String × String)) : (handle_starttag st tag attrs).title = st.title := by
  unfold handle_starttag
  split
  · rfl
  · split
    · split
      · rfl
      · rfl
    · rfl

theorem handle_starttag_description (st : DescriptionParser) (tag : String)
    (attrs : List (String × String)) :
    (handle_starttag st tag attrs).description = st.description := by
  unfold handle_starttag
  split
  · rfl
  · split
    · split
      · rfl
      · rfl
    · rfl

theorem handle_endtag_title (st : DescriptionParser) (tag : String) :
    (handle_endtag st tag).title = st.title := by
  unfold handle_endtag
  split <;> split <;> rfl

theorem handle_endtag_description (st : DescriptionParser) (tag : String) :
    (handle_endtag st tag).description = st.description := by
  unfold handle_endtag
  split <;> split <;> rfl

theorem handle_data_title (st : DescriptionParser) (d : String) :
    (handle_data st d).title = if st.recording_title then d else st.title := by
  unfold handle_data
  split <;> split <;> rfl

theorem handle_data_description (st : DescriptionParser) (d : String) :
    (handle_data st d).description =
      if st.recording_desc then st.description ++ [d] else st.description := by
  unfold handle_data
  split <;> split <;> rfl

theorem step_start_eq (st : DescriptionParser) (tag : String) (attrs : List (String × String)) :
    step st (HtmlToken.startTag tag attrs) = handle_starttag st tag attrs := rfl

theorem step_end_eq (st : DescriptionParser) (tag : String) :
    step st (HtmlToken.endTag tag) = handle_endtag st tag := rfl

theorem step_text_eq (st : DescriptionParser) (d : String) :
    step st (HtmlToken.text d) = handle_data st d := rfl

theorem fragsFrom_cons_start (st : DescriptionParser) (tag : String)
    (attrs : List (String × String)) (rest : List HtmlToken) :
    fragsFrom st (HtmlToken.startTag tag attrs :: rest) =
      fragsFrom (step st (HtmlToken.startTag tag attrs)) rest := rfl

theorem fragsFrom_cons_end (st : DescriptionParser) (tag : String) (rest : List HtmlToken) :
    fragsFrom st (HtmlToken.endTag tag :: rest) =
      fragsFrom (step st (HtmlToken.endTag tag)) rest := rfl

theorem fragsFrom_cons_text (st : DescriptionParser) (d : String) (rest : List HtmlToken) :
    fragsFrom st (HtmlToken.text d :: rest) =
      ((if st.recording_title then [d] else []) ++ (fragsFrom (step st (HtmlToken.text d)) rest).1,
        (if st.recording_desc then [d] else []) ++
          (fragsFrom (step st (HtmlToken.text d)) rest).2) := rfl

theorem foldl_step_frags (toks : List HtmlToken) :
    ∀ st : DescriptionParser,
      (toks.foldl step st).title = ((fragsFrom st toks).1).getLastD st.title ∧
      (toks.foldl step st).description = st.description ++ (fragsFrom st toks).2 := by
  induction toks with
  | nil => intro st; simp [fragsFrom]
  | cons tok rest ih =>
    intro st
    rw [List.foldl_cons]
    obtain ⟨ih1, ih2⟩ := ih (step st tok)
    cases tok with
    | startTag tag attrs =>
      rw [fragsFrom_cons_start]
      refine ⟨?_, ?_⟩
      · rw [ih1, step_start_eq, handle_starttag_title]
      · rw [ih2, step_start_eq, handle_starttag_description]
    | endTag tag =>
      rw [fragsFrom_cons_end]
      refine ⟨?_, ?_⟩
      · rw [ih1, step_end_eq, handle_endtag_title]
      · rw [ih2, step_end_eq, handle_endtag_description]
    | text d =>
      rw [fragsFrom_cons_text]
      refine ⟨?_, ?_⟩
      · rw [ih1, step_text_eq, handle_data_title]
        cases hrt : st.recording_title with
        | true =>
          show (fragsFrom (handle_data st d) rest).1.getLastD d =
            (d :: (fragsFrom (handle_data st d) rest).1).getLastD st.title
          rw [List.getLastD_cons]
        | false => rfl
      · rw [ih2, step_text_eq, handle_data_description]
        cases hrd : st.recording_desc with
        | true =>
          show (st.description ++ [d]) ++ (fragsFrom (handle_data st d) rest).2 =
            st.description ++ ([d] ++ (fragsFrom (handle_data st d) rest).2)
          rw [List.append_assoc]
        | false => rfl

/-- Claim C8: over any token stream, a div end tag clears the description
flag and a title end tag clears the title flag unconditionally; the
captured title is the last text fragment delivered while the title flag was
set (the empty initial value when there is none); the captured description
is the ordered list of fragments delivered while the description flag was
set. -/
theorem C8_scanner_flags_and_capture (toks : List HtmlToken) :
    ((feed toks).title = ((fragsFrom DescriptionParser.init toks).1).getLastD "" ∧
      (feed toks).description = (fragsFrom DescriptionParser.init toks).2) ∧
    ∀ st : DescriptionParser,
      (step st (.endTag "div")).recording_desc = false ∧
      (step st (.endTag "title")).recording_title = false := by
  refine ⟨⟨?_, ?_⟩, ?_⟩
  · exact (foldl_step_frags toks DescriptionParser.init).1
  · have h := (foldl_step_frags toks DescriptionParser.init).2
    simpa using h
  · intro st
    constructor
    · show (handle_endtag st "div").recording_desc = false
      unfold handle_endtag
      simp
    · show (handle_endtag st "title").recording_title = false
      unfold handle_endtag
      simp

/-! ## Claim C1: the title field splitting -/

theorem pysplit_headD {sep : List Char} (hsep : sep ≠ []) (s d : List Char) :
    (pysplit sep s).headD d =
      match splitAtFirst sep s with
      | none => s
      | some (a, _) => a := by
  rw [pysplit_eq hsep]
  cases hsp : splitAtFirst sep s with
  | none => rfl
  | some p =>
    obtain ⟨a, b⟩ := p
    rfl

theorem pysplit_getElem1 {sep : List Char} (hsep : sep ≠ []) (s : List Char) :
    (pysplit sep s)[1]? =
      match splitAtFirst sep s with
      | none => none
      | some (_, b) =>
        some (match splitAtFirst sep b with
          | none => b
          | some (a', _) => a') := by
  rw [pysplit_eq hsep]
  cases hsp : splitAtFirst sep s with
  | none => simp
  | some p =>
    obtain ⟨a, b⟩ := p
    simp only [List.getElem?_cons_succ]
    rw [pysplit_eq hsep b]
    cases hsp2 : splitAtFirst sep b with
    | none => simp
    | some q =>
      obtain ⟨a', b'⟩ := q
      simp

theorem pysplitS_getElem1 (sep s : String) :
    (pysplitS sep s)[1]? = ((pysplit sep.data s.data)[1]?).map String.mk := by
  unfold pysplitS
  rw [List.getElem?_map]

theorem splitAtFirstS_eq_some {sep s : String} {a b : List Char}
    (h : splitAtFirst sep.data s.data = some (a, b)) :
    splitAtFirstS sep s = some (String.mk a, String.mk b) := by
  unfold splitAtFirstS
  rw [h]
  rfl

theorem splitAtFirstS_fst_getD (sep : String) (l : List Char) :
    ((splitAtFirstS sep (String.mk l)).map Prod.fst).getD (String.mk l) =
      String.mk (match splitAtFirst sep.data l with | none => l | some (a, _) => a) := by
  unfold splitAtFirstS
  cases h : splitAtFirst sep.data l with
  | none => rfl
  | some p =>
    obtain ⟨a, b⟩ := p
    rfl

theorem pysplitS_headD_eq_fst_getD (sep : String) (hsep : sep.data ≠ []) (l : List Char) :
    (pysplitS sep (String.mk l)).headD "" =
      ((splitAtFirstS sep (String.mk l)).map Prod.fst).getD (String.mk l) := by
  rw [pysplitS_headD, splitAtFirstS_fst_getD, pysplit_headD hsep]

theorem parseFields_of_get1 {title s1 s2 : String}
    (h1 : (pysplitS " in " title)[1]? = some s1)
    (h2 : (pysplitS " hiring " title)[1]? = some s2) :
    parseFields title = .ok ((pysplitS " in " s2).headD "",
      (pysplitS " hiring" title).headD "", (pysplitS " | " s1).headD "") := by
  unfold parseFields
  rw [h1, h2]

/-- Claim C1 counterexample: on the title "Made in Italy hiringteam hiring
Chef in Rome | LinkedIn" (company containing " in " and a word beginning
with "hiring") the code yields company "Made in Italy" and place "Italy
hiringteam hiring Chef", while the rule worded in the claim yields company
"Made in Italy hiringteam" and place "Rome". -/
theorem C1_counterexample :
    parseFields "Made in Italy hiringteam hiring Chef in Rome | LinkedIn" =
        .ok ("Chef", "Made in Italy", "Italy hiringteam hiring Chef") ∧
      claimFields "Made in Italy hiringteam hiring Chef in Rome | LinkedIn" =
        some ("Chef", "Made in Italy hiringteam", "Rome") ∧
      ("Made in Italy" : String) ≠ "Made in Italy hiringteam" ∧
      ("Italy hiringteam hiring Chef" : String) ≠ "Rome" :=
  ⟨rfl, rfl, by decide, by decide⟩

/-- Claim C1 as amended: for a title containing " hiring " and " in ", the
code extracts company as the text before the first " hiring" (no trailing
space), job title as the segment between the first and second occurrences
of " hiring " (whole remainder when unique) cut before its first " in ",
and place as the segment between the first and second occurrences of " in "
in the whole title (whole remainder when unique) cut before its first
" | ". -/
theorem C1_amended_splitting (title : String)
    (h1 : ∃ a b : String, title = a ++ " hiring " ++ b)
    (h2 : ∃ a b : String, title = a ++ " in " ++ b) :
    ∃ jt c p : String,
      parseFields title = .ok (jt, c, p) ∧ amendedFields title = some (jt, c, p) := by
  have h1' : ∃ a b : List Char, title.data = a ++ (" hiring " : String).data ++ b :=
    string_occurs_iff.mp h1
  have h2' : ∃ a b : List Char, title.data = a ++ (" in " : String).data ++ b :=
    string_occurs_iff.mp h2
  have h3' : ∃ a b : List Char, title.data = a ++ (" hiring" : String).data ++ b := by
    obtain ⟨a, b, hh⟩ := h1'
    refine ⟨a, ' ' :: b, ?_⟩
    rw [hh]
    simp
  obtain ⟨ph, hh⟩ := Option.isSome_iff_exists.mp (splitAtFirst_isSome h1')
  obtain ⟨hA, hB⟩ := ph
  obtain ⟨pi, hi⟩ := Option.isSome_iff_exists.mp (splitAtFirst_isSome h2')
  obtain ⟨iA, iB⟩ := pi
  obtain ⟨pc, hc⟩ := Option.isSome_iff_exists.mp (splitAtFirst_isSome h3')
  obtain ⟨cA, cB⟩ := pc
  have e1 : (pysplitS " in " title)[1]? =
      some (String.mk (match splitAtFirst (" in " : String).data iB with
        | none => iB
        | some (a', _) => a')) := by
    rw [pysplitS_getElem1, pysplit_getElem1 (by decide), hi]
    rfl
  have e2 : (pysplitS " hiring " title)[1]? =
      some (String.mk (match splitAtFirst (" hiring " : String).data hB with
        | none => hB
        | some (a', _) => a')) := by
    rw [pysplitS_getElem1, pysplit_getElem1 (by decide), hh]
    rfl
  refine ⟨_, _, _, parseFields_of_get1 e1 e2, ?_⟩
  unfold amendedFields
  rw [splitAtFirstS_eq_some hh, splitAtFirstS_eq_some hi, splitAtFirstS_eq_some hc]
  have hXh : ((splitAtFirstS " hiring " (String.mk hB)).map Prod.fst).getD (String.mk hB) =
      String.mk (match splitAtFirst (" hiring " : String).data hB with
        | none => hB
        | some (a', _) => a') := splitAtFirstS_fst_getD _ _
  have hXi : ((splitAtFirstS " in " (String.mk iB)).map Prod.fst).getD (String.mk iB) =
      String.mk (match splitAtFirst (" in " : String).data iB with
        | none => iB
        | some (a', _) => a') := splitAtFirstS_fst_getD _ _
  have hjt : (pysplitS " in "
        (String.mk (match splitAtFirst (" hiring " : String).data hB with
          | none => hB
          | some (a', _) => a'))).headD "" =
      ((splitAtFirstS " in "
          (((splitAtFirstS " hiring " (String.mk hB)).map Prod.fst).getD
            (String.mk hB))).map Prod.fst).getD
        (((splitAtFirstS " hiring " (String.mk hB)).map Prod.fst).getD (String.mk hB)) := by
    rw [hXh]
    exact pysplitS_headD_eq_fst_getD " in " (by decide) _
  have hpl : (pysplitS " | "
        (String.mk (match splitAtFirst (" in " : String).data iB with
          | none => iB
          | some (a', _) => a'))).headD "" =
      ((splitAtFirstS " | "
          (((splitAtFirstS " in " (String.mk iB)).map Prod.fst).getD
            (String.mk iB))).map Prod.fst).getD
        (((splitAtFirstS " in " (String.mk iB)).map Prod.fst).getD (String.mk iB)) := by
    rw [hXi]
    exact pysplitS_headD_eq_fst_getD " | " (by decide) _
  have hcomp : (pysplitS " hiring" title).headD "" = String.mk cA := by
    rw [pysplitS_headD, pysplit_headD (by decide), hc]
  rw [hjt, hpl, hcomp]

theorem C1_amended_witness :
    (∃ a b : String,
      ("Acme Corp hiring Senior Engineer in Springfield | LinkedIn" : String) =
        a ++ " hiring " ++ b) ∧
    (∃ a b : String,
      ("Acme Corp hiring Senior Engineer in Springfield | LinkedIn" : String) =
        a ++ " in " ++ b) ∧
    ∃ jt c p : String,
      parseFields "Acme Corp hiring Senior Engineer in Springfield | LinkedIn" =
          .ok (jt, c, p) ∧
        amendedFields "Acme Corp hiring Senior Engineer in Springfield | LinkedIn" =
          some (jt, c, p) :=
  ⟨⟨"Acme Corp", "Senior Engineer in Springfield | LinkedIn", by decide⟩,
    ⟨"Acme Corp hiring Senior Engineer", "Springfield | LinkedIn", by decide⟩,
    C1_amended_splitting "Acme Corp hiring Senior Engineer in Springfield | LinkedIn"
      ⟨"Acme Corp", "Senior Engineer in Springfield | LinkedIn", by decide⟩
      ⟨"Acme Corp hiring Senior Engineer", "Springfield | LinkedIn", by decide⟩⟩

/-! ## Claim C5: extract_jobs -/

theorem scanPat_getLast : ∀ {pat s con rest : List Char},
    scanPat pat s = some (con, rest) → ∀ p : Char, pat.getLast? = some p → p ≠ '.' →
      con.getLast? = some p := by
  intro pat
  induction pat with
  | nil =>
    intro s con rest h p hp
    simp at hp
  | cons q qs ih =>
    intro s con rest h p hp hdot
    cases s with
    | nil => simp [scanPat] at h
    | cons c cs =>
      simp only [scanPat] at h
      by_cases hqc : q = '.' ∨ q = c
      · rw [if_pos hqc] at h
        simp only [Option.map_eq_some'] at h
        obtain ⟨⟨con', rest'⟩, hsc, heq⟩ := h
        cases heq
        cases qs with
        | nil =>
          simp only [scanPat, Option.some.injEq, Prod.mk.injEq] at hsc
          obtain ⟨hcon', _⟩ := hsc
          subst hcon'
          simp only [List.getLast?_singleton, Option.some.injEq] at hp
          subst hp
          cases hqc with
          | inl h' => exact absurd h' hdot
          | inr h' => subst h'; rfl
        | cons q2 qs2 =>
          rw [List.getLast?_cons_cons] at hp
          have hcon' := ih hsc p hp hdot
          cases con' with
          | nil => simp at hcon'
          | cons x xs => rw [List.getLast?_cons_cons]; exact hcon'
      · rw [if_neg hqc] at h
        exact Option.noConfusion h

theorem takeDigits_digits : ∀ {s ds rest : List Char},
    takeDigits s = (ds, rest) → ∀ c ∈ ds, c.isDigit = true := by
  intro s
  induction s with
  | nil =>
    intro ds rest h c hc
    simp only [takeDigits, Prod.mk.injEq] at h
    obtain ⟨rfl, rfl⟩ := h
    simp at hc
  | cons a as ih =>
    intro ds rest h c hc
    simp only [takeDigits] at h
    by_cases ha : a.isDigit
    · rw [if_pos ha] at h
      cases hq : takeDigits as with
      | mk ds' rest' =>
        rw [hq] at h
        simp only [Prod.mk.injEq] at h
        obtain ⟨rfl, rfl⟩ := h
        rcases List.mem_cons.mp hc with rfl | hc'
        · exact ha
        · exact ih hq c hc'
    · rw [if_neg ha] at h
      simp only [Prod.mk.injEq] at h
      obtain ⟨rfl, rfl⟩ := h
      simp at hc

theorem findAllF_inv {pat : List Char} : ∀ (fuel : Nat) (s : List Char)
    (m : List Char × List Char), m ∈ findAllF pat fuel s →
      (∃ s1 rest, scanPat pat s1 = some (m.1, rest)) ∧ m.2 ≠ [] ∧
        ∀ c ∈ m.2, c.isDigit = true := by
  intro fuel
  induction fuel with
  | zero => intro s m hm; simp [findAllF] at hm
  | succ f ih =>
    intro s m hm
    cases s with
    | nil => simp [findAllF] at hm
    | cons c cs =>
      simp only [findAllF] at hm
      cases hscan : scanPat pat (c :: cs) with
      | none =>
        rw [hscan] at hm
        exact ih cs m hm
      | some pr =>
        obtain ⟨con, rest⟩ := pr
        cases htd : takeDigits rest with
        | mk ds rest2 =>
          cases ds with
          | nil =>
            simp only [hscan, htd] at hm
            exact ih cs m hm
          | cons d ds' =>
            simp only [hscan, htd] at hm
            rcases List.mem_cons.mp hm with rfl | hm'
            · exact ⟨⟨c :: cs, rest, hscan⟩, by simp, fun ch hch => takeDigits_digits htd ch hch⟩
            · exact ih rest2 m hm'

theorem append_cons_eq_of_not_mem {c : Char} : ∀ {p q t u : List Char},
    p ++ c :: t = q ++ c :: u → c ∉ t → c ∉ u → t = u := by
  intro p
  induction p with
  | nil =>
    intro q t u h ht hu
    cases q with
    | nil => simpa using h
    | cons b q' =>
      simp only [List.nil_append, List.cons_append, List.cons.injEq] at h
      exfalso
      apply ht
      rw [h.2]
      simp
  | cons a p' ih =>
    intro q t u h ht hu
    cases q with
    | nil =>
      simp only [List.nil_append, List.cons_append, List.cons.injEq] at h
      exfalso
      apply hu
      rw [← h.2]
      simp
    | cons b q' =>
      simp only [List.cons_append, List.cons.injEq] at h
      exact ih h.2 ht hu

theorem pysplit_single_last (c : Char) (pre ds : List Char) (hds : c ∉ ds) :
    (pysplit [c] (pre ++ c :: ds)).getLastD [] = ds := by
  have hsep : ([c] : List Char) ≠ [] := by simp
  have hocc : ∃ a b, pre ++ c :: ds = a ++ [c] ++ b := ⟨pre, ds, by simp⟩
  have hkey := pysplit_getLast_spec hsep (pre ++ c :: ds)
  obtain ⟨p', hp'⟩ := hkey.2.1 hocc
  have hct : c ∉ (pysplit [c] (pre ++ c :: ds)).getLastD [] := by
    intro hmem
    apply hkey.1
    obtain ⟨s1, t1, hst⟩ := List.append_of_mem hmem
    exact ⟨s1, t1, by rw [hst]; simp⟩
  have heq : pre ++ c :: ds = p' ++ c :: ((pysplit [c] (pre ++ c :: ds)).getLastD []) := by
    conv_lhs => rw [hp']
    simp
  exact (append_cons_eq_of_not_mem heq hds hct).symm

theorem lastSeg_of_match {con ds : List Char} (hlast : con.getLast? = some '/')
    (hds : ∀ c ∈ ds, c.isDigit = true) :
    lastSegS (String.mk (con ++ ds)) = String.mk ds := by
  obtain ⟨con', rfl⟩ := List.getLast?_eq_some_iff.mp hlast
  have hnot : '/' ∉ ds := fun hmem => absurd (hds '/' hmem) (by decide)
  unfold lastSegS
  have hdata : (String.mk ((con' ++ ['/']) ++ ds)).data = con' ++ '/' :: ds := by simp
  rw [hdata, pysplit_single_last '/' con' ds hnot]

/-- Claim C5: extract_jobs returns, deduplicated, exactly the final
digit-run segments (each match's maximal digit run, after the trailing
slash of the matched URL prefix) of the pattern matches in the body,
restricted to segments of length exactly 10; other lengths never appear,
and every returned element is a pure digit run. -/
theorem C5_extract_jobs_spec (body : String) :
    (extract_jobs body).Nodup ∧
    (∀ x, x ∈ extract_jobs body ↔
      ((∃ m, m ∈ findAllChars LI_BASE_URL.data body.data ∧
        lastSegS (String.mk (m.1 ++ m.2)) = x) ∧ x.length = 10)) ∧
    ∀ m, m ∈ findAllChars LI_BASE_URL.data body.data →
      lastSegS (String.mk (m.1 ++ m.2)) = String.mk m.2 ∧ m.2 ≠ [] ∧
        ∀ ch ∈ m.2, ch.isDigit = true := by
  refine ⟨?_, ?_, ?_⟩
  · exact List.Nodup.filter _ (List.nodup_dedup _)
  · intro x
    unfold extract_jobs
    simp [List.mem_filter, List.mem_dedup, List.mem_map]
  · intro m hm
    have hinv := findAllF_inv body.data.length body.data m hm
    obtain ⟨⟨s1, rest, hscan⟩, hne, hdig⟩ := hinv
    have hlast : m.1.getLast? = some '/' := scanPat_getLast hscan '/' (by decide) (by decide)
    exact ⟨lastSeg_of_match hlast hdig, hne, hdig⟩
